import Mathlib

/-!
Verification of the `EnumFlags` bitmask library (`src/eflags.h`).

The library is a header-only C++ utility: a class `EnumFlags<Enum>` storing a
single field `flags` of the enumeration's underlying integer type, together
with free `operator|` / `operator&` overloads on enumeration values.

Shallow embedding: a value of the underlying integer type of width `w` bits is
represented by its bit pattern, a natural number below `2 ^ w` (this covers
signed underlying types such as `char` as well, since all the operations in the
source act on the two's-complement bit pattern).  Every place where the C++
code narrows an `int` result back into the `w`-bit field is modelled by an
explicit `% 2 ^ w`; the bitwise NOT of a `w`-bit pattern is XOR with
`2 ^ w - 1`.  The mutating member functions become functions from the old mask
to the new mask.
-/

namespace EFlags

/-- `operator|` (eflags.h:13-19): casts both enum values to the underlying
integer type, ORs them, and casts the result back to the enum type (a
narrowing to `w` bits after the promoted-`int` computation). -/
def orE (w lhs rhs : Nat) : Nat := (lhs ||| rhs) % 2 ^ w

/-- `operator&` (eflags.h:29-35): casts both enum values to the underlying
integer type, ANDs them, and casts the result back to the enum type. -/
def andE (w lhs rhs : Nat) : Nat := (lhs &&& rhs) % 2 ^ w

/-- Default constructor `EnumFlags()` (eflags.h:49-51): `flags = 0`. -/
def mkEmpty : Nat := 0

/-- Single-flag constructor `EnumFlags(Enum flag)` (eflags.h:58-60):
`flags = static_cast<underlying>(flag)`, i.e. the flag's bit pattern. -/
def mkSingle (flag : Nat) : Nat := flag

/-- Variadic constructor `EnumFlags(Enums... flags)` (eflags.h:66-69):
`flags = (static_cast<underlying>(flags) | ...)`, a right fold of bitwise OR
over the arguments, narrowed into the `w`-bit member on initialization. -/
def mkMany (w : Nat) (fs : List Nat) : Nat := (fs.foldr (· ||| ·) 0) % 2 ^ w

/-- Single-flag `set` (eflags.h:76-80): `flags |= static_cast<underlying>(flag)`,
the compound assignment narrowing the promoted result back to `w` bits. -/
def setFlag (w mask flag : Nat) : Nat := (mask ||| flag) % 2 ^ w

/-- Variadic `set` (eflags.h:87-90): `(set(flags), ...)`, a left-to-right fold
expansion calling the single-flag `set` once per argument. -/
def setMany (w : Nat) (mask : Nat) (fs : List Nat) : Nat :=
  fs.foldl (setFlag w) mask

/-- `reset` (eflags.h:97-100): `flags &= ~static_cast<underlying>(flag)`; the
complement of the `w`-bit pattern is XOR with `2 ^ w - 1`, and the compound
assignment narrows back to `w` bits. -/
def reset (w mask flag : Nat) : Nat :=
  (mask &&& ((2 ^ w - 1) ^^^ flag)) % 2 ^ w

/-- `hasFlag` (eflags.h:108-111):
`(flags & static_cast<underlying>(flag)) != 0`. -/
def hasFlag (mask flag : Nat) : Bool := (mask &&& flag) != 0

/-- `operator bool` (eflags.h:118-120): `flags != 0`. -/
def toBool (mask : Nat) : Bool := mask != 0

/-- Helper: single-flag `set` swaps (used for commutativity-style facts). -/
theorem setFlag_swap (w m f g : Nat) :
    setFlag w (setFlag w m f) g = setFlag w (setFlag w m g) f := by
  apply Nat.eq_of_testBit_eq
  intro i
  simp only [setFlag, Nat.testBit_mod_two_pow, Nat.testBit_or]
  cases Nat.testBit m i <;> cases Nat.testBit f i <;> cases Nat.testBit g i <;>
    simp

/-- Helper: ANDing a mask with a power of two keeps exactly that bit. -/
theorem and_two_pow_cases (m i : Nat) :
    m &&& 2 ^ i = if m.testBit i then 2 ^ i else 0 := by
  apply Nat.eq_of_testBit_eq
  intro j
  by_cases h : m.testBit i
  · simp only [h, if_true, Nat.testBit_and, Nat.testBit_two_pow]
    by_cases hij : i = j
    · subst hij; simp [h]
    · simp [hij]
  · simp only [h, if_false, Nat.testBit_and, Nat.testBit_two_pow,
      Nat.zero_testBit]
    by_cases hij : i = j
    · subst hij; simp [h]
    · simp [hij]

/-- Helper: after `reset d`, `hasFlag g` is `false` for any `g` whose bits all
lie inside `d` (with `d` a `w`-bit pattern). -/
theorem hasFlag_reset_subset (w m d g : Nat) (hd : d < 2 ^ w)
    (hg : ∀ t, g.testBit t = true → d.testBit t = true) :
    hasFlag (reset w m d) g = false := by
  have h : reset w m d &&& g = 0 := by
    apply Nat.eq_of_testBit_eq
    intro t
    simp only [reset, Nat.testBit_and, Nat.testBit_mod_two_pow,
      Nat.testBit_xor, Nat.testBit_two_pow_sub_one, Nat.zero_testBit]
    cases hgt : g.testBit t
    · simp
    · have hdt : d.testBit t = true := hg t hgt
      have htw : t < w := by
        by_contra hcon
        have : d.testBit t = false :=
          Nat.testBit_lt_two_pow
            (Nat.lt_of_lt_of_le hd
              (Nat.pow_le_pow_right (by decide) (Nat.le_of_not_lt hcon)))
        simp [this] at hdt
      simp [htw, hdt]
  show (reset w m d &&& g != 0) = false
  rw [h]
  rfl

/-- Helper: `setMany` from a `w`-bit starting mask equals ORing in the fold of
all the flags, narrowed to `w` bits. -/
theorem setMany_eq (w : Nat) :
    ∀ (fs : List Nat) (m : Nat), m < 2 ^ w →
      setMany w m fs = (m ||| fs.foldr (· ||| ·) 0) % 2 ^ w := by
  intro fs
  induction fs with
  | nil =>
    intro m hm
    show m = (m ||| 0) % 2 ^ w
    rw [Nat.or_zero, Nat.mod_eq_of_lt hm]
  | cons f fs ih =>
    intro m hm
    show setMany w (setFlag w m f) fs =
      (m ||| (f ||| fs.foldr (· ||| ·) 0)) % 2 ^ w
    rw [ih (setFlag w m f) (Nat.mod_lt _ (Nat.two_pow_pos w))]
    apply Nat.eq_of_testBit_eq
    intro i
    simp only [setFlag, Nat.testBit_mod_two_pow, Nat.testBit_or]
    by_cases hi : i < w <;>
      cases Nat.testBit m i <;> cases Nat.testBit f i <;> simp [hi]

end EFlags

open EFlags

/-- C4: a default-constructed `EnumFlags` has mask `0`, and `hasFlag f` on it is
`false` for every flag value `f`. -/
theorem c4_default_empty :
    mkEmpty = 0 ∧ ∀ f : Nat, hasFlag mkEmpty f = false := by
  constructor
  · rfl
  · intro f
    simp [mkEmpty, hasFlag]

/-- C6: single-flag `set` is idempotent: setting the same flag twice yields the
same mask as setting it once. -/
theorem c6_set_idempotent (w m f : Nat) :
    setFlag w (setFlag w m f) f = setFlag w m f := by
  apply Nat.eq_of_testBit_eq
  intro i
  simp only [setFlag, Nat.testBit_mod_two_pow, Nat.testBit_or]
  cases Nat.testBit m i <;> cases Nat.testBit f i <;> simp

/-- C7: single-flag `set` is commutative: `set f` then `set g` yields the same
mask as `set g` then `set f`, from any starting mask. -/
theorem c7_set_commutative (w m f g : Nat) :
    setFlag w (setFlag w m f) g = setFlag w (setFlag w m g) f :=
  setFlag_swap w m f g

/-- C8: the boolean conversion is `true` iff the mask is non-zero; in
particular the empty `EnumFlags` converts to `false`. -/
theorem c8_bool_conversion :
    toBool mkEmpty = false ∧ ∀ m : Nat, (toBool m = true ↔ m ≠ 0) := by
  constructor
  · rfl
  · intro m
    show (m != 0) = true ↔ m ≠ 0
    simp

/-- C9: for every mask and every flag value `f` — single-bit, multi-bit or
zero — immediately after `reset f`, `hasFlag f` is `false`. -/
theorem c9_reset_clears (w m f : Nat) :
    hasFlag (reset w m f) f = false := by
  have h : reset w m f &&& f = 0 := by
    apply Nat.eq_of_testBit_eq
    intro i
    simp only [reset, Nat.testBit_and, Nat.testBit_mod_two_pow,
      Nat.testBit_xor, Nat.testBit_two_pow_sub_one, Nat.zero_testBit]
    by_cases hi : i < w <;>
      cases hm : Nat.testBit m i <;> cases hf : Nat.testBit f i <;> simp [hi]
  show (reset w m f &&& f != 0) = false
  rw [h]
  rfl

/-- C1 counterexample: at mask `1` and flag `3` (a multi-bit combined value),
`hasFlag` returns `true` although not every bit of the flag is set in the mask
(`1 AND 3 = 1 ≠ 3`), refuting the claimed iff with the all-bits test. -/
theorem c1_counterexample :
    hasFlag 1 3 = true ∧ ¬((1 : Nat) &&& 3 = 3) := by decide

/-- C1 (amended): `hasFlag f` returns `true` iff `mask AND f` is non-zero
(at least one bit of `f` is set in the mask); for a single-bit flag
`f = 2 ^ i` this coincides with the all-bits test `mask AND f = f`. -/
theorem c1_hasFlag_characterization (m f : Nat) :
    (hasFlag m f = true ↔ m &&& f ≠ 0) ∧
      ((∃ i, f = 2 ^ i) → (hasFlag m f = true ↔ m &&& f = f)) := by
  constructor
  · show (m &&& f != 0) = true ↔ m &&& f ≠ 0
    simp
  · rintro ⟨i, rfl⟩
    show (m &&& 2 ^ i != 0) = true ↔ m &&& 2 ^ i = 2 ^ i
    rw [and_two_pow_cases]
    by_cases h : m.testBit i
    · simp only [h, if_true]
      constructor
      · intro _; trivial
      · intro _
        simp
    · simp only [h, if_false]
      constructor
      · intro hc
        simp at hc
      · intro hc
        exact absurd hc (Nat.two_pow_pos i).ne

/-- C1 witness: at mask `5` and single-bit flag `4 = 2 ^ 2`, `hasFlag` agrees
with the all-bits test. -/
theorem c1_witness :
    hasFlag 5 4 = true ↔ (5 : Nat) &&& 4 = 4 :=
  (c1_hasFlag_characterization 5 4).2 ⟨2, by decide⟩

/-- C2: for distinct single-bit flags `2 ^ i`, `2 ^ j`, `2 ^ k`, setting all
three and then calling `reset` on their OR-combination clears all three:
`hasFlag` afterwards returns `false` for each. -/
theorem c2_bulk_reset (w m i j k : Nat) (hi : i < w) (hj : j < w) (hk : k < w)
    ( _hij : i ≠ j) ( _hjk : j ≠ k) ( _hik : i ≠ k) :
    hasFlag (reset w (setMany w m [2 ^ i, 2 ^ j, 2 ^ k])
        (orE w (orE w (2 ^ i) (2 ^ j)) (2 ^ k))) (2 ^ i) = false ∧
      hasFlag (reset w (setMany w m [2 ^ i, 2 ^ j, 2 ^ k])
        (orE w (orE w (2 ^ i) (2 ^ j)) (2 ^ k))) (2 ^ j) = false ∧
      hasFlag (reset w (setMany w m [2 ^ i, 2 ^ j, 2 ^ k])
        (orE w (orE w (2 ^ i) (2 ^ j)) (2 ^ k))) (2 ^ k) = false := by
  have hd : orE w (orE w (2 ^ i) (2 ^ j)) (2 ^ k) < 2 ^ w :=
    Nat.mod_lt _ (Nat.two_pow_pos w)
  have hbit : ∀ t : Nat, t < w →
      (orE w (orE w (2 ^ i) (2 ^ j)) (2 ^ k)).testBit t =
        ((2 ^ i).testBit t || (2 ^ j).testBit t || (2 ^ k).testBit t) := by
    intro t ht
    simp [orE, Nat.testBit_mod_two_pow, Nat.testBit_or, ht]
  refine ⟨?_, ?_, ?_⟩
  · apply hasFlag_reset_subset w _ _ _ hd
    intro t ht
    have hti : i = t := by simpa [Nat.testBit_two_pow] using ht
    subst hti
    rw [hbit i hi]
    simp [ht]
  · apply hasFlag_reset_subset w _ _ _ hd
    intro t ht
    have htj : j = t := by simpa [Nat.testBit_two_pow] using ht
    subst htj
    rw [hbit j hj]
    simp [ht]
  · apply hasFlag_reset_subset w _ _ _ hd
    intro t ht
    have htk : k = t := by simpa [Nat.testBit_two_pow] using ht
    subst htk
    rw [hbit k hk]
    simp [ht]

/-- C2 witness: the bulk reset scenario at width 8 for bits 0, 1, 2 starting
from the empty mask. -/
theorem c2_witness :
    hasFlag (reset 8 (setMany 8 0 [2 ^ 0, 2 ^ 1, 2 ^ 2])
        (orE 8 (orE 8 (2 ^ 0) (2 ^ 1)) (2 ^ 2))) (2 ^ 0) = false ∧
      hasFlag (reset 8 (setMany 8 0 [2 ^ 0, 2 ^ 1, 2 ^ 2])
        (orE 8 (orE 8 (2 ^ 0) (2 ^ 1)) (2 ^ 2))) (2 ^ 1) = false ∧
      hasFlag (reset 8 (setMany 8 0 [2 ^ 0, 2 ^ 1, 2 ^ 2])
        (orE 8 (orE 8 (2 ^ 0) (2 ^ 1)) (2 ^ 2))) (2 ^ 2) = false :=
  c2_bulk_reset 8 0 0 1 2 (by decide) (by decide) (by decide)
    (by decide) (by decide) (by decide)

/-- C3: variadic `set` over a list of flags equals calling single-flag `set`
once per argument (the left-to-right fold), and any reordering of the
arguments produces the same mask. -/
theorem c3_variadic_set (w m : Nat) (fs gs : List Nat) (h : fs.Perm gs) :
    setMany w m fs = fs.foldl (setFlag w) m ∧
      setMany w m fs = setMany w m gs := by
  refine ⟨rfl, ?_⟩
  induction h generalizing m with
  | nil => rfl
  | cons x h ih => exact ih (setFlag w m x)
  | swap x y l =>
    exact congrArg (fun s => setMany w s l) (setFlag_swap w m y x)
  | trans h1 h2 ih1 ih2 => exact (ih1 m).trans (ih2 m)

/-- C3 witness: setting `[1, 2]` equals the fold of single sets and agrees with
the swapped order `[2, 1]`, at width 8 from the empty mask. -/
theorem c3_witness :
    setMany 8 0 [1, 2] = List.foldl (setFlag 8) 0 [1, 2] ∧
      setMany 8 0 [1, 2] = setMany 8 0 [2, 1] :=
  c3_variadic_set 8 0 [1, 2] [2, 1] (List.Perm.swap 2 1 [])

/-- C5: on `w`-bit enum values, `operator|` returns the value whose underlying
integer is the bitwise OR of the operands, and `operator&` the bitwise AND. -/
theorem c5_combinators (w a b : Nat) (ha : a < 2 ^ w) (hb : b < 2 ^ w) :
    orE w a b = a ||| b ∧ andE w a b = a &&& b := by
  constructor
  · exact Nat.mod_eq_of_lt (Nat.or_lt_two_pow ha hb)
  · exact Nat.mod_eq_of_lt (Nat.and_lt_two_pow a hb)

/-- C5 witness: the combinators at width 8 on values 3 and 5. -/
theorem c5_witness :
    orE 8 3 5 = (3 : Nat) ||| 5 ∧ andE 8 3 5 = (3 : Nat) &&& 5 :=
  c5_combinators 8 3 5 (by decide) (by decide)

/-- C10: constructing an `EnumFlags` from flags (single-flag or variadic
constructor) yields the same mask as default-constructing and then calling
`set` on the same flags. -/
theorem c10_construct_equiv (w f : Nat) (fs : List Nat) (hf : f < 2 ^ w)
    ( _hfs : fs ≠ []) :
    mkSingle f = setMany w mkEmpty [f] ∧ mkMany w fs = setMany w mkEmpty fs := by
  constructor
  · show f = (0 ||| f) % 2 ^ w
    rw [Nat.zero_or, Nat.mod_eq_of_lt hf]
  · rw [setMany_eq w fs mkEmpty (Nat.two_pow_pos w)]
    show (fs.foldr (· ||| ·) 0) % 2 ^ w = (0 ||| fs.foldr (· ||| ·) 0) % 2 ^ w
    rw [Nat.zero_or]

/-- C10 witness: constructors versus empty-then-set at width 8 for flag 1 and
flag list `[1, 2, 4]`. -/
theorem c10_witness :
    mkSingle 1 = setMany 8 mkEmpty [1] ∧
      mkMany 8 [1, 2, 4] = setMany 8 mkEmpty [1, 2, 4] :=
  c10_construct_equiv 8 1 [1, 2, 4] (by decide) (by decide)
